import Mathlib

/-!
Verification of the `changeFileExtensions` function of the FileManager
repository (src/changeFileExt.go) against its natural-language
specification.

Strings are shallowly embedded as lists of characters; the single
directory the function operates on is embedded as a list of entries
(name and directory flag), and the result of the initial `ioutil.ReadDir`
call is an `Except` value: `.error cause` when the listing fails,
`.ok entries` when it succeeds.  The Go function's side effect on the
filesystem is made explicit: the embedded function returns the final
directory contents as a third component next to the two lists
(`renamedFiles`, `errors`) the Go function returns.
-/

deriving instance DecidableEq for Except

namespace FileManager

/-- Character strings, embedded as lists of characters. -/
abbrev Str : Type := List Char

/-- Convenience conversion from Lean string literals. -/
def chars (s : String) : Str := s.toList

/-- One immediate child of the directory: its (base) name and whether it
is itself a directory, as reported by the directory listing. -/
structure Entry where
  name : Str
  isDir : Bool
deriving DecidableEq, Repr

/-- Modelled from the spec: the underlying cause with which the host
rename interface (spec §6) can fail; most notably the target existing
as a directory. -/
inductive RenameCause where
  | noSuchFile : RenameCause
  | destIsDir : RenameCause
  | destNotDir : RenameCause
deriving DecidableEq, Repr

/-- The two error shapes produced by `changeFileExtensions`
(`fmt.Errorf` calls at src/changeFileExt.go:25 and :37): a
directory-read error carrying the attempted folder path and the
underlying cause, and a per-file rename error carrying the old path,
the new path and the underlying cause. -/
inductive Err where
  | readDir (folderPath : Str) (cause : Str) : Err
  | renameFailed (oldName newName : Str) (cause : RenameCause) : Err
deriving DecidableEq, Repr

/-- Go `strings.Contains(s, ".")`, specialised to the one-character
pattern used at src/changeFileExt.go:15 and :19. -/
def goContainsDot (s : Str) : Bool := s.contains '.'

/-- The extension normalisation performed on both extension arguments at
src/changeFileExt.go:15-21: prepend "." when the string does not
contain a dot, otherwise leave it unchanged. -/
def normalizeExt (e : Str) : Str :=
  if goContainsDot e then e else '.' :: e

/-- Go `strings.HasSuffix(s, t)`: whether `t` is a suffix of `s`. -/
def goHasSuffix (s t : Str) : Bool := decide (t <:+ s)

/-- Go `strings.TrimSuffix(s, t)`: remove the trailing `t` when present,
otherwise return `s` unchanged. -/
def goTrimSuffix (s t : Str) : Str :=
  if t <:+ s then s.take (s.length - t.length) else s

/-- Modelled from the spec: the host rename interface (spec §6), an
atomic same-directory move, restricted to the single directory
`folderPath` whose contents are `fs`; paths are of the form
`folderPath ++ "/" ++ base`.  Renaming to the same path is a no-op
success; renaming onto an existing directory fails (spec §6: "most
notably: target exists as a directory"), a directory onto an existing
file fails, and a file onto an existing file replaces it. -/
def osRename (folderPath : Str) (fs : List Entry) (oldPath newPath : Str) :
    Except RenameCause (List Entry) :=
  match fs.find? (fun e => decide (e.name = oldPath.drop (folderPath.length + 1))) with
  | none => .error .noSuchFile
  | some src =>
    if oldPath.drop (folderPath.length + 1) = newPath.drop (folderPath.length + 1) then
      .ok fs
    else
      match fs.find? (fun e => decide (e.name = newPath.drop (folderPath.length + 1))) with
      | some dst =>
        if dst.isDir then .error .destIsDir
        else if src.isDir then .error .destNotDir
        else .ok ((fs.filter
            (fun e => !decide (e.name = newPath.drop (folderPath.length + 1)))).map
          (fun e => if e.name = oldPath.drop (folderPath.length + 1) then
            ⟨newPath.drop (folderPath.length + 1), e.isDir⟩ else e))
      | none => .ok (fs.map
          (fun e => if e.name = oldPath.drop (folderPath.length + 1) then
            ⟨newPath.drop (folderPath.length + 1), e.isDir⟩ else e))

/-- The loop of src/changeFileExt.go:28-42 over the snapshot listing
`files`, threading the current directory contents `fs`: for each entry
whose name ends with `oldExt`, build the old and new full paths and
attempt the rename, collecting the new path on success and a rename
error on failure, and continuing with the remaining entries either way.
The extension arguments are the already-normalised ones. -/
def processLoop (oldExt newExt folderPath : Str) :
    List Entry → List Entry → List Str × List Err × List Entry
  | [], fs => ([], [], fs)
  | f :: rest, fs =>
    if goHasSuffix f.name oldExt then
      let oldName := folderPath ++ '/' :: f.name
      let newName := goTrimSuffix oldName oldExt ++ newExt
      match osRename folderPath fs oldName newName with
      | .error c =>
        let t := processLoop oldExt newExt folderPath rest fs
        (t.1, Err.renameFailed oldName newName c :: t.2.1, t.2.2)
      | .ok fs1 =>
        let t := processLoop oldExt newExt folderPath rest fs1
        (newName :: t.1, t.2.1, t.2.2)
    else processLoop oldExt newExt folderPath rest fs

/-- src/changeFileExt.go:11-45, `changeFileExtensions`: normalise both
extensions, list the directory (returning immediately with a single
read error when the listing fails), then run the rename loop over the
listed entries.  The third component of the result is the final
directory state (the function's effect on the filesystem), next to the
`(renamedFiles, errors)` pair the Go function returns. -/
def changeFileExtensions (oldExt newExt folderPath : Str)
    (dir : Except Str (List Entry)) :
    List Str × List Err × Except Str (List Entry) :=
  let oE := normalizeExt oldExt
  let nE := normalizeExt newExt
  match dir with
  | .error cause => ([], [Err.readDir folderPath cause], .error cause)
  | .ok files =>
    let t := processLoop oE nE folderPath files files
    (t.1, t.2.1, .ok t.2.2)

/-! ### Basic lemmas about the embedded string operations -/

theorem goHasSuffix_iff (s t : Str) : goHasSuffix s t = true ↔ t <:+ s := by
  simp [goHasSuffix]

theorem goHasSuffix_eq_false_iff (s t : Str) : goHasSuffix s t = false ↔ ¬ t <:+ s := by
  simp [goHasSuffix]

theorem goTrimSuffix_append_right (u t : Str) : goTrimSuffix (u ++ t) t = u := by
  unfold goTrimSuffix
  rw [if_pos (List.suffix_append u t)]
  have hl : (u ++ t).length - t.length = u.length := by simp
  rw [hl, List.take_left]

theorem goTrimSuffix_of_suffix {t n : Str} (h : t <:+ n) (u : Str) :
    goTrimSuffix (u ++ n) t = u ++ goTrimSuffix n t := by
  obtain ⟨m, rfl⟩ := h
  rw [← List.append_assoc, goTrimSuffix_append_right, goTrimSuffix_append_right]

theorem drop_path (p b : Str) : (p ++ '/' :: b).drop (p.length + 1) = b := by
  have h : p ++ '/' :: b = (p ++ ['/']) ++ b := by simp
  rw [h, List.drop_left' (by simp)]

theorem trimSuffix_path {oE : Str} (p : Str) {b : Str} (h : oE <:+ b) :
    goTrimSuffix (p ++ '/' :: b) oE = p ++ '/' :: goTrimSuffix b oE := by
  have h1 : p ++ '/' :: b = (p ++ ['/']) ++ b := by simp
  have h2 : p ++ '/' :: goTrimSuffix b oE = (p ++ ['/']) ++ goTrimSuffix b oE := by simp
  rw [h1, h2, goTrimSuffix_of_suffix h]

/-! ### Unfolding equations for the rename loop -/

theorem processLoop_nil (oE nE p : Str) (fs : List Entry) :
    processLoop oE nE p [] fs = ([], [], fs) := rfl

theorem processLoop_cons_skip {oE nE p : Str} {f : Entry} {rest fs : List Entry}
    (hm : goHasSuffix f.name oE = false) :
    processLoop oE nE p (f :: rest) fs = processLoop oE nE p rest fs := by
  simp [processLoop, hm]

theorem processLoop_cons_fail {oE nE p : Str} {f : Entry} {rest fs : List Entry}
    {c : RenameCause} (hm : goHasSuffix f.name oE = true)
    (hr : osRename p fs (p ++ '/' :: f.name)
        (goTrimSuffix (p ++ '/' :: f.name) oE ++ nE) = .error c) :
    processLoop oE nE p (f :: rest) fs =
      ((processLoop oE nE p rest fs).1,
       Err.renameFailed (p ++ '/' :: f.name)
           (goTrimSuffix (p ++ '/' :: f.name) oE ++ nE) c ::
         (processLoop oE nE p rest fs).2.1,
       (processLoop oE nE p rest fs).2.2) := by
  simp [processLoop, hm, hr]

theorem processLoop_cons_ok {oE nE p : Str} {f : Entry} {rest fs fs1 : List Entry}
    (hm : goHasSuffix f.name oE = true)
    (hr : osRename p fs (p ++ '/' :: f.name)
        (goTrimSuffix (p ++ '/' :: f.name) oE ++ nE) = .ok fs1) :
    processLoop oE nE p (f :: rest) fs =
      ((goTrimSuffix (p ++ '/' :: f.name) oE ++ nE) :: (processLoop oE nE p rest fs1).1,
       (processLoop oE nE p rest fs1).2.1,
       (processLoop oE nE p rest fs1).2.2) := by
  simp [processLoop, hm, hr]

example :
    changeFileExtensions (chars "txt") (chars "log") (chars "d")
      (.ok [⟨chars "a.txt", false⟩, ⟨chars "c.png", false⟩]) =
    ([chars "d/a.log"], [],
      .ok [⟨chars "a.log", false⟩, ⟨chars "c.png", false⟩]) := by decide

example :
    changeFileExtensions (chars ".txt") (chars ".log") (chars "d")
      (.ok [⟨chars "a.txt", false⟩, ⟨chars "a.log", true⟩, ⟨chars "b.txt", false⟩]) =
    ([chars "d/b.log"],
      [Err.renameFailed (chars "d/a.txt") (chars "d/a.log") .destIsDir],
      .ok [⟨chars "a.txt", false⟩, ⟨chars "a.log", true⟩, ⟨chars "b.log", false⟩]) := by
  decide

theorem normalizeExt_idem (e : Str) : normalizeExt (normalizeExt e) = normalizeExt e := by
  unfold normalizeExt goContainsDot
  by_cases h : '.' ∈ e
  · simp [h]
  · simp [h]

theorem changeFileExtensions_normalize (o n p : Str) (d : Except Str (List Entry)) :
    changeFileExtensions o n p d =
      changeFileExtensions (normalizeExt o) (normalizeExt n) p d := by
  unfold changeFileExtensions
  rw [normalizeExt_idem, normalizeExt_idem]

/-! ### Structural lemmas about the rename loop -/

theorem processLoop_append (oE nE p : Str) (l₁ l₂ fs : List Entry) :
    processLoop oE nE p (l₁ ++ l₂) fs =
      ((processLoop oE nE p l₁ fs).1 ++
          (processLoop oE nE p l₂ (processLoop oE nE p l₁ fs).2.2).1,
       (processLoop oE nE p l₁ fs).2.1 ++
          (processLoop oE nE p l₂ (processLoop oE nE p l₁ fs).2.2).2.1,
       (processLoop oE nE p l₂ (processLoop oE nE p l₁ fs).2.2).2.2) := by
  induction l₁ generalizing fs with
  | nil => simp [processLoop_nil]
  | cons f rest ih =>
    by_cases hm : goHasSuffix f.name oE = true
    · cases hr : osRename p fs (p ++ '/' :: f.name)
          (goTrimSuffix (p ++ '/' :: f.name) oE ++ nE) with
      | error c =>
        simp only [List.cons_append, processLoop_cons_fail hm hr, ih]
      | ok fs1 =>
        simp only [List.cons_append, processLoop_cons_ok hm hr, ih]
    · rw [Bool.not_eq_true] at hm
      simp only [List.cons_append, processLoop_cons_skip hm, ih]

theorem processLoop_count (oE nE p : Str) (files : List Entry) :
    ∀ fs : List Entry,
      (processLoop oE nE p files fs).1.length +
        (processLoop oE nE p files fs).2.1.length =
        (files.filter (fun f => goHasSuffix f.name oE)).length := by
  induction files with
  | nil => intro fs; simp [processLoop_nil]
  | cons f rest ih =>
    intro fs
    by_cases hm : goHasSuffix f.name oE = true
    · cases hr : osRename p fs (p ++ '/' :: f.name)
          (goTrimSuffix (p ++ '/' :: f.name) oE ++ nE) with
      | error c =>
        have h := ih fs
        simp only [processLoop_cons_fail hm hr, List.filter_cons, hm, if_pos,
          List.length_cons] at h ⊢
        omega
      | ok fs1 =>
        have h := ih fs1
        simp only [processLoop_cons_ok hm hr, List.filter_cons, hm, if_pos,
          List.length_cons] at h ⊢
        omega
    · rw [Bool.not_eq_true] at hm
      simp [processLoop_cons_skip hm, List.filter_cons, hm, ih fs]

theorem processLoop_renamed_mem (oE nE p : Str) :
    ∀ (files fs : List Entry) (x : Str), x ∈ (processLoop oE nE p files fs).1 →
      (∃ b, x = p ++ '/' :: b) ∧ (∃ stem, x = stem ++ nE)
  | [], fs, x, hx => by simp [processLoop_nil] at hx
  | f :: rest, fs, x, hx => by
    by_cases hm : goHasSuffix f.name oE = true
    · cases hr : osRename p fs (p ++ '/' :: f.name)
          (goTrimSuffix (p ++ '/' :: f.name) oE ++ nE) with
      | error c =>
        rw [processLoop_cons_fail hm hr] at hx
        exact processLoop_renamed_mem oE nE p rest fs x hx
      | ok fs1 =>
        rw [processLoop_cons_ok hm hr] at hx
        rcases List.mem_cons.mp hx with rfl | hx'
        · have hsuf : oE <:+ f.name := (goHasSuffix_iff _ _).mp hm
          constructor
          · refine ⟨goTrimSuffix f.name oE ++ nE, ?_⟩
            rw [trimSuffix_path p hsuf]
            simp
          · exact ⟨goTrimSuffix (p ++ '/' :: f.name) oE, rfl⟩
        · exact processLoop_renamed_mem oE nE p rest fs1 x hx'
    · rw [Bool.not_eq_true] at hm
      rw [processLoop_cons_skip hm] at hx
      exact processLoop_renamed_mem oE nE p rest fs x hx

/-! ### Lemmas towards the second-run property (claim C5) -/

theorem osRename_ok_shape {p : Str} {fs fs1 : List Entry} {o n : Str}
    (h : osRename p fs o n = .ok fs1) :
    ∀ e ∈ fs1, e.name = n.drop (p.length + 1) ∨
      (e ∈ fs ∧ e.name ≠ o.drop (p.length + 1)) := by
  intro e he
  unfold osRename at h
  split at h
  · cases h
  · split at h
    · rename_i heq
      cases h
      by_cases hob : e.name = o.drop (p.length + 1)
      · exact Or.inl (hob.trans heq)
      · exact Or.inr ⟨he, hob⟩
    · split at h
      · split at h
        · cases h
        · split at h
          · cases h
          · cases h
            rcases List.mem_map.mp he with ⟨e₀, he₀, hmap⟩
            by_cases h₀ : e₀.name = o.drop (p.length + 1)
            · rw [if_pos h₀] at hmap
              exact Or.inl (by rw [← hmap])
            · rw [if_neg h₀] at hmap
              subst hmap
              exact Or.inr ⟨(List.mem_filter.mp he₀).1, h₀⟩
      · cases h
        rcases List.mem_map.mp he with ⟨e₀, he₀, hmap⟩
        by_cases h₀ : e₀.name = o.drop (p.length + 1)
        · rw [if_pos h₀] at hmap
          exact Or.inl (by rw [← hmap])
        · rw [if_neg h₀] at hmap
          subst hmap
          exact Or.inr ⟨he₀, h₀⟩

theorem processLoop_all_no_match {oE : Str} (nE p : Str) :
    ∀ (files fs : List Entry), (∀ f ∈ files, goHasSuffix f.name oE = false) →
      processLoop oE nE p files fs = ([], [], fs)
  | [], _, _ => rfl
  | f :: rest, fs, h => by
    rw [processLoop_cons_skip (h f (List.mem_cons_self f rest))]
    exact processLoop_all_no_match nE p rest fs
      (fun g hg => h g (List.mem_cons_of_mem f hg))

theorem processLoop_clears_matches {oE nE p : Str} :
    ∀ (files fs : List Entry) (r : List Str) (fs' : List Entry),
      (∀ e ∈ fs, ¬ oE <:+ e.name ∨ (∃ stem, e.name = stem ++ nE) ∨
        e.name ∈ files.map Entry.name) →
      processLoop oE nE p files fs = (r, [], fs') →
      ∀ e ∈ fs', ¬ oE <:+ e.name ∨ ∃ stem, e.name = stem ++ nE
  | [], fs, r, fs', hinv, heq => by
    rw [processLoop_nil] at heq
    cases heq
    intro e he
    rcases hinv e he with h | h | h
    · exact Or.inl h
    · exact Or.inr h
    · simp at h
  | f :: rest, fs, r, fs', hinv, heq => by
    by_cases hm : goHasSuffix f.name oE = true
    · cases hr : osRename p fs (p ++ '/' :: f.name)
          (goTrimSuffix (p ++ '/' :: f.name) oE ++ nE) with
      | error c =>
        rw [processLoop_cons_fail hm hr] at heq
        exact absurd (congrArg (fun t => t.2.1) heq) (by simp)
      | ok fs1 =>
        rw [processLoop_cons_ok hm hr] at heq
        have hsuf : oE <:+ f.name := (goHasSuffix_iff _ _).mp hm
        have hnb : (goTrimSuffix (p ++ '/' :: f.name) oE ++ nE).drop (p.length + 1) =
            goTrimSuffix f.name oE ++ nE := by
          rw [trimSuffix_path p hsuf]
          have : p ++ '/' :: goTrimSuffix f.name oE ++ nE =
              p ++ '/' :: (goTrimSuffix f.name oE ++ nE) := by simp
          rw [this, drop_path]
        have hob : (p ++ '/' :: f.name).drop (p.length + 1) = f.name := drop_path p f.name
        have h21 : (processLoop oE nE p rest fs1).2.1 = [] := by
          have := congrArg (fun t => t.2.1) heq
          simpa using this
        have h22 : (processLoop oE nE p rest fs1).2.2 = fs' := by
          have := congrArg (fun t => t.2.2) heq
          simpa using this
        have hloop : processLoop oE nE p rest fs1 =
            ((processLoop oE nE p rest fs1).1, [], fs') := by
          rw [← h21, ← h22]
        refine processLoop_clears_matches rest fs1 _ fs' ?_ hloop
        intro e he1
        rcases osRename_ok_shape hr e he1 with hename | ⟨hefs, hne⟩
        · rw [hnb] at hename
          exact Or.inr (Or.inl ⟨goTrimSuffix f.name oE, hename⟩)
        · rw [hob] at hne
          rcases hinv e hefs with h | h | h
          · exact Or.inl h
          · exact Or.inr (Or.inl h)
          · rcases List.mem_map.mp h with ⟨g, hg, hgname⟩
            rcases List.mem_cons.mp hg with rfl | hg'
            · exact absurd hgname.symm hne
            · exact Or.inr (Or.inr (List.mem_map.mpr ⟨g, hg', hgname⟩))
    · rw [Bool.not_eq_true] at hm
      rw [processLoop_cons_skip hm] at heq
      refine processLoop_clears_matches rest fs r fs' ?_ heq
      intro e he
      rcases hinv e he with h | h | h
      · exact Or.inl h
      · exact Or.inr (Or.inl h)
      · rcases List.mem_map.mp h with ⟨g, hg, hgname⟩
        rcases List.mem_cons.mp hg with rfl | hg'
        · refine Or.inl ?_
          rw [← hgname]
          exact (goHasSuffix_eq_false_iff _ _).mp hm
        · exact Or.inr (Or.inr (List.mem_map.mpr ⟨g, hg', hgname⟩))

/-! ### Claims -/

/-- Claim C1 (code bug): the spec says a directory entry is never a
candidate for renaming, even when its name ends with the normalised
source extension.  The loop at src/changeFileExt.go:28-42 never
consults the entry's directory flag, so a directory named "x.txt" is
renamed like any file: with source extension "txt" and target "log" it
is renamed and reported in renamedFiles, contradicting the claim. -/
theorem c1_directory_is_renamed :
    changeFileExtensions (chars "txt") (chars "log") (chars "d")
      (.ok [⟨chars "x.txt", true⟩]) =
    ([chars "d/x.log"], [], .ok [⟨chars "x.log", true⟩]) := by decide

/-- Claim C2, counterexample: normalisation tests `strings.Contains`,
not a leading-dot test, so the extension "tar.gz" is left without a
leading separator, and matching then uses the bare "tar.gz": the file
"xtar.gz" is renamed, while under the claimed normalisation (".tar.gz")
it would not match. -/
theorem c2_counterexample :
    normalizeExt (chars "tar.gz") = chars "tar.gz" ∧
    (normalizeExt (chars "tar.gz")).head? ≠ some '.' ∧
    (changeFileExtensions (chars "tar.gz") (chars "x") (chars "d")
      (.ok [⟨chars "xtar.gz", false⟩])).1 ≠ [] ∧
    (changeFileExtensions (chars ".tar.gz") (chars "x") (chars "d")
      (.ok [⟨chars "xtar.gz", false⟩])).1 = [] := by decide

/-- Claim C2, amended: `changeFileExtensions` prepends "." to an
extension argument exactly when the argument contains no "." anywhere;
a bare "txt" becomes ".txt" and ".txt" is left unchanged, but an
argument with a dot in a non-leading position (such as "tar.gz") is
used as-is without gaining a leading separator.  Normalisation is
idempotent, so the function behaves identically on an argument and on
its normalised form. -/
theorem c2_amended :
    (∀ e : Str, goContainsDot e = false → normalizeExt e = '.' :: e) ∧
    (∀ e : Str, goContainsDot e = true → normalizeExt e = e) ∧
    normalizeExt (chars "txt") = chars ".txt" ∧
    normalizeExt (chars ".txt") = chars ".txt" ∧
    (∀ (o n p : Str) (d : Except Str (List Entry)),
      changeFileExtensions o n p d =
        changeFileExtensions (normalizeExt o) (normalizeExt n) p d) := by
  refine ⟨?_, ?_, by decide, by decide, changeFileExtensions_normalize⟩
  · intro e h
    simp [normalizeExt, h]
  · intro e h
    simp [normalizeExt, h]

/-- Witness for the amended claim C2 at the concrete input "txt". -/
theorem c2_amended_witness : normalizeExt (chars "txt") = '.' :: chars "txt" :=
  c2_amended.1 (chars "txt") (by decide)

/-- Claim C3: when the directory listing fails with cause `c`, the
function returns immediately with no renamed paths and exactly one
error naming the attempted folder path and carrying the cause; the
directory is untouched and no per-file processing happens. -/
theorem c3_listing_failure (o n p c : Str) :
    changeFileExtensions o n p (.error c) = ([], [Err.readDir p c], .error c) := rfl

/-- Claim C8: invoking with source extension "txt" and invoking with
".txt" (same target extension, same directory) produce identical
results: same renamedFiles, same errors, same final directory state. -/
theorem c8_source_ext_normalization (n p : Str) (d : Except Str (List Entry)) :
    changeFileExtensions (chars "txt") n p d =
      changeFileExtensions (chars ".txt") n p d := by
  have h : normalizeExt (chars "txt") = normalizeExt (chars ".txt") := by decide
  unfold changeFileExtensions
  rw [h]

/-- Claim C4: for a matching entry whose rename fails, exactly one
error carrying the old path, the new path and the underlying cause is
prepended ahead of the results of the remaining entries, the directory
state used for the remaining entries is unchanged (the failed file is
untouched), and processing continues; moreover a run can return both a
non-empty errors list and a non-empty renamedFiles list (partial
success), as the concrete directory {a.txt, a.log/, b.txt} with
".txt" → ".log" shows. -/
theorem c4_rename_failure_collects_and_continues :
    (∀ (oE nE p : Str) (f : Entry) (rest fs : List Entry) (c : RenameCause),
      goHasSuffix f.name oE = true →
      osRename p fs (p ++ '/' :: f.name)
          (goTrimSuffix (p ++ '/' :: f.name) oE ++ nE) = .error c →
      processLoop oE nE p (f :: rest) fs =
        ((processLoop oE nE p rest fs).1,
         Err.renameFailed (p ++ '/' :: f.name)
             (goTrimSuffix (p ++ '/' :: f.name) oE ++ nE) c ::
           (processLoop oE nE p rest fs).2.1,
         (processLoop oE nE p rest fs).2.2)) ∧
    (changeFileExtensions (chars ".txt") (chars ".log") (chars "d")
        (.ok [⟨chars "a.txt", false⟩, ⟨chars "a.log", true⟩,
          ⟨chars "b.txt", false⟩])).1 ≠ [] ∧
    (changeFileExtensions (chars ".txt") (chars ".log") (chars "d")
        (.ok [⟨chars "a.txt", false⟩, ⟨chars "a.log", true⟩,
          ⟨chars "b.txt", false⟩])).2.1 ≠ [] :=
  ⟨fun _ _ _ _ _ _ _ hm hr => processLoop_cons_fail hm hr, by decide, by decide⟩

/-- Witness for claim C4: renaming "d/a.txt" to "d/a.log" while "a.log"
exists as a directory fails, appends exactly the described error, and
leaves the directory state for the remaining entries unchanged. -/
theorem c4_rename_failure_witness :
    processLoop (chars ".txt") (chars ".log") (chars "d")
        [⟨chars "a.txt", false⟩] [⟨chars "a.txt", false⟩, ⟨chars "a.log", true⟩] =
      ((processLoop (chars ".txt") (chars ".log") (chars "d") []
          [⟨chars "a.txt", false⟩, ⟨chars "a.log", true⟩]).1,
       Err.renameFailed (chars "d" ++ '/' :: chars "a.txt")
           (goTrimSuffix (chars "d" ++ '/' :: chars "a.txt") (chars ".txt") ++ chars ".log")
           .destIsDir ::
         (processLoop (chars ".txt") (chars ".log") (chars "d") []
            [⟨chars "a.txt", false⟩, ⟨chars "a.log", true⟩]).2.1,
       (processLoop (chars ".txt") (chars ".log") (chars "d") []
          [⟨chars "a.txt", false⟩, ⟨chars "a.log", true⟩]).2.2) :=
  c4_rename_failure_collects_and_continues.1 (chars ".txt") (chars ".log") (chars "d")
    ⟨chars "a.txt", false⟩ [] [⟨chars "a.txt", false⟩, ⟨chars "a.log", true⟩]
    .destIsDir (by decide) (by decide)

/-- Claim C6: entries are processed, and renamedFiles and errors
accumulated, in exactly the order of the directory listing: for every
split of the listing, the outputs are those of the first segment
followed by those of the second segment run on the intermediate
directory state, and no sorting is applied — a listing given in
non-alphabetical order (b.txt before a.txt) yields its results in that
same order. -/
theorem c6_listing_order :
    (∀ (oE nE p : Str) (l₁ l₂ fs : List Entry),
      processLoop oE nE p (l₁ ++ l₂) fs =
        ((processLoop oE nE p l₁ fs).1 ++
            (processLoop oE nE p l₂ (processLoop oE nE p l₁ fs).2.2).1,
         (processLoop oE nE p l₁ fs).2.1 ++
            (processLoop oE nE p l₂ (processLoop oE nE p l₁ fs).2.2).2.1,
         (processLoop oE nE p l₂ (processLoop oE nE p l₁ fs).2.2).2.2)) ∧
    changeFileExtensions (chars "txt") (chars "log") (chars "d")
      (.ok [⟨chars "b.txt", false⟩, ⟨chars "a.txt", false⟩]) =
    ([chars "d/b.log", chars "d/a.log"], [],
      .ok [⟨chars "b.log", false⟩, ⟨chars "a.log", false⟩]) :=
  ⟨processLoop_append, by decide⟩

/-- Claim C7: for a non-directory entry, matching is the strict
trailing-suffix test against the normalised source extension (an
occurrence of the extension mid-name, as in "a.txt.bak" for ".txt",
does not match and the entry contributes nothing), and for a match the
new path is exactly the old full path with the trailing source
extension removed and the target extension appended. -/
theorem c7_strict_suffix_match (oldExt newExt p : Str) (f : Entry)
    (rest fs : List Entry) (_hd : f.isDir = false) :
    (goHasSuffix f.name (normalizeExt oldExt) = true ↔
      normalizeExt oldExt <:+ f.name) ∧
    goHasSuffix (chars "a.txt.bak") (chars ".txt") = false ∧
    (goHasSuffix f.name (normalizeExt oldExt) = false →
      processLoop (normalizeExt oldExt) (normalizeExt newExt) p (f :: rest) fs =
        processLoop (normalizeExt oldExt) (normalizeExt newExt) p rest fs) ∧
    (goHasSuffix f.name (normalizeExt oldExt) = true →
      ∃ stem, p ++ '/' :: f.name = stem ++ normalizeExt oldExt ∧
        goTrimSuffix (p ++ '/' :: f.name) (normalizeExt oldExt) ++ normalizeExt newExt =
          stem ++ normalizeExt newExt) := by
  refine ⟨goHasSuffix_iff _ _, by decide, fun hm => processLoop_cons_skip hm,
    fun hm => ?_⟩
  have hsuf : normalizeExt oldExt <:+ f.name := (goHasSuffix_iff _ _).mp hm
  obtain ⟨m, hmm⟩ := hsuf
  refine ⟨p ++ '/' :: m, ?_, ?_⟩
  · rw [← hmm]
    simp
  · rw [trimSuffix_path p ((goHasSuffix_iff _ _).mp hm)]
    have : goTrimSuffix f.name (normalizeExt oldExt) = m := by
      rw [← hmm, goTrimSuffix_append_right]
    rw [this]

/-- Witness for claim C7 at the concrete non-directory entry "a.txt"
with source extension "txt". -/
theorem c7_strict_suffix_match_witness :
    goHasSuffix (chars "a.txt") (normalizeExt (chars "txt")) = true ↔
      normalizeExt (chars "txt") <:+ chars "a.txt" :=
  (c7_strict_suffix_match (chars "txt") (chars "log") (chars "d")
    ⟨chars "a.txt", false⟩ [] [] rfl).1

/-- Claim C9: when the listing succeeds, every entry whose name ends
with the normalised source extension contributes exactly one element
to the output, so the lengths of renamedFiles and errors add up to the
number of suffix-matching entries in the listing. -/
theorem c9_match_partition (oE nE p : Str) (l : List Entry) :
    (changeFileExtensions oE nE p (.ok l)).1.length +
      (changeFileExtensions oE nE p (.ok l)).2.1.length =
      (l.filter (fun f => goHasSuffix f.name (normalizeExt oE))).length := by
  have h := processLoop_count (normalizeExt oE) (normalizeExt nE) p l l
  simpa [changeFileExtensions] using h

/-- Claim C10: every path reported in renamedFiles starts with the
given folder path followed by the separator '/' and ends with the
normalised target extension. -/
theorem c10_renamed_path_shape (o n p : Str) (l : List Entry) (x : Str)
    (hx : x ∈ (changeFileExtensions o n p (.ok l)).1) :
    (∃ b, x = p ++ '/' :: b) ∧ (∃ stem, x = stem ++ normalizeExt n) := by
  apply processLoop_renamed_mem (normalizeExt o) (normalizeExt n) p l l x
  simpa [changeFileExtensions] using hx

/-- Witness for claim C10: the single renamed path "d/a.log" of a
concrete run lies inside folder "d" and carries extension ".log". -/
theorem c10_renamed_path_shape_witness :
    (∃ b, chars "d/a.log" = chars "d" ++ '/' :: b) ∧
    (∃ stem, chars "d/a.log" = stem ++ normalizeExt (chars "log")) :=
  c10_renamed_path_shape (chars "txt") (chars "log") (chars "d")
    [⟨chars "a.txt", false⟩] (chars "d/a.log") (by decide)

/-- Claim C5, counterexample: with source extension ".txt" and target
extension ".bak.txt", the run on a directory holding only the file
"a.txt" is successful and error-free (it renames it to "d/a.bak.txt"),
yet a second run with the same arguments on the resulting state renames
that file again, so the claimed second-run emptiness fails. -/
theorem c5_counterexample :
    changeFileExtensions (chars ".txt") (chars ".bak.txt") (chars "d")
        (.ok [⟨chars "a.txt", false⟩]) =
      ([chars "d/a.bak.txt"], [], .ok [⟨chars "a.bak.txt", false⟩]) ∧
    (changeFileExtensions (chars ".txt") (chars ".bak.txt") (chars "d")
        (.ok [⟨chars "a.bak.txt", false⟩])).1 ≠ [] := by decide

/-- Claim C5, amended: after a successful, error-free run, a second run
with the same source and target extensions on the resulting directory
state renames zero additional files and returns empty renamedFiles and
empty errors — provided that, after normalisation, neither extension is
a suffix of the other (without that proviso a renamed file can end in
the source extension again, as the counterexample shows). -/
theorem c5_second_run_empty (oldExt newExt p : Str) (l0 fs1 : List Entry)
    (r1 : List Str)
    (hno : ¬ normalizeExt oldExt <:+ normalizeExt newExt)
    (hon : ¬ normalizeExt newExt <:+ normalizeExt oldExt)
    (h1 : changeFileExtensions oldExt newExt p (.ok l0) = (r1, [], .ok fs1)) :
    changeFileExtensions oldExt newExt p (.ok fs1) = ([], [], .ok fs1) := by
  have hpl : processLoop (normalizeExt oldExt) (normalizeExt newExt) p l0 l0 =
      ((processLoop (normalizeExt oldExt) (normalizeExt newExt) p l0 l0).1, [], fs1) := by
    have h21 := congrArg (fun t => t.2.1) h1
    have h22 := congrArg (fun t => t.2.2) h1
    simp only [changeFileExtensions] at h21 h22
    simp at h21 h22
    rw [← h21, ← h22]
  have hclear := processLoop_clears_matches l0 l0 _ fs1
    (fun e he => Or.inr (Or.inr (List.mem_map_of_mem Entry.name he))) hpl
  have hnomatch : ∀ f ∈ fs1, goHasSuffix f.name (normalizeExt oldExt) = false := by
    intro f hf
    rcases hclear f hf with h | ⟨stem, hs⟩
    · exact (goHasSuffix_eq_false_iff _ _).mpr h
    · refine (goHasSuffix_eq_false_iff _ _).mpr ?_
      intro hsuf
      rw [hs] at hsuf
      rcases List.suffix_or_suffix_of_suffix hsuf
          (List.suffix_append stem (normalizeExt newExt)) with h | h
      · exact hno h
      · exact hon h
  have hrun2 := processLoop_all_no_match (normalizeExt newExt) p fs1 fs1 hnomatch
  simp [changeFileExtensions, hrun2]

/-- Witness for the amended claim C5: after renaming "a.txt" to
"a.log" (".txt" → ".log", neither a suffix of the other), a second run
on the resulting directory returns empty results and leaves the
directory unchanged. -/
theorem c5_second_run_empty_witness :
    changeFileExtensions (chars ".txt") (chars ".log") (chars "d")
        (.ok [⟨chars "a.log", false⟩]) =
      ([], [], .ok [⟨chars "a.log", false⟩]) :=
  c5_second_run_empty (chars ".txt") (chars ".log") (chars "d")
    [⟨chars "a.txt", false⟩] [⟨chars "a.log", false⟩] [chars "d/a.log"]
    (by decide) (by decide) (by decide)

end FileManager
